import Mathlib

/-!
Verification of the rate-normalization core of `tap-ecbexchangerates`
(`tap_ecbexchangerates/client.py`).

The embedding models:
* `ExchangeRate` (a frozen dataclass) as a structure; dates are embedded as
  `Int` day numbers (the code only uses ordering and one-day increments),
  currencies as `String`, and the `float` rate field as `ℚ` (the claims under
  study are about the algebraic values computed, not rounding).
* `ExchangeRate.invert` and `ExchangeRate.rebase`; `rebase` can raise
  `ValueError`, so it returns `Except String ExchangeRate`.
* `ECBClient._fill_missing_dates` as `fillMissingDates`.  Python's
  `{entry.date: entry for entry in data}` dict keeps the last entry per date
  (`dateLookup`), `min(all_dates)` is the minimum of the date keys, and the
  `while current_date <= end_date` loop runs exactly
  `(end_date - min + 1).toNat` iterations, embedded as `fillLoop` on that
  fuel.  The `logger.warning` in the `last_conversion is None` branch is
  modelled by returning the list of warned-about dates as a second component.
* `RateCalculator.__init__` as `initRates`.  The Python loop
  `for rate in self.rates: ... self.rates.append(rate.invert())` iterates a
  list that grows while it is being iterated; this is embedded as a queue
  (`initLoop`): the processed prefix is `done`, the not-yet-visited suffix is
  `todo`, and appending to the Python list is appending to `todo`.  The loop
  terminates exactly when the queue empties; `initRates` supplies fuel
  `2 * P.length + 1`, which is proven sufficient whenever no rate with base
  equal to the pivot also has target equal to the pivot (otherwise the Python
  loop itself never terminates).
* `RateCalculator.calculate_rebased_rates` as `calculate_rebased_rates`.
  `self.by_date` (a `defaultdict(list)` filled by insertion order) is
  embedded by `byDateKeys` (date keys in first-occurrence order) and
  `ratesOn` (the per-date groups); the per-date dict
  `base_rates = {rate.target_currency: rate ...}` keeps the last write per
  target, embedded by `lookupBase` as a backwards search.  A `rebase` call
  that raised would abort the Python method; the embedding keeps only the
  `.ok` results, and `rebase_ok_of_guards` proves every call actually reached
  by the method succeeds, so nothing is dropped.
-/

structure ExchangeRate where
  date : Int
  base_currency : String
  target_currency : String
  exchange_rate : ℚ
deriving DecidableEq

namespace ExchangeRate

/-- `ExchangeRate.invert` from `client.py`: swap the currencies and invert
the rate. -/
def invert (r : ExchangeRate) : ExchangeRate :=
  { date := r.date
    base_currency := r.target_currency
    target_currency := r.base_currency
    exchange_rate := 1 / r.exchange_rate }

/-- `ExchangeRate.rebase` from `client.py`: change the base currency using a
pivot lookup rate; the two `raise ValueError` branches become `Except.error`. -/
def rebase (r : ExchangeRate) (new_base_currency : String)
    (lookup_rate : ExchangeRate) : Except String ExchangeRate :=
  if new_base_currency = r.base_currency then
    Except.ok r
  else if new_base_currency ≠ lookup_rate.target_currency then
    Except.error "Cannot convert: lookup target does not match the new base"
  else if r.base_currency ≠ lookup_rate.base_currency then
    Except.error "Cannot convert: lookup base does not match the rate base"
  else
    Except.ok
      { date := r.date
        base_currency := new_base_currency
        target_currency := r.target_currency
        exchange_rate := 1 / lookup_rate.exchange_rate * r.exchange_rate }

/-- The (date, base, target) identity of an observation. -/
def triple (r : ExchangeRate) : Int × String × String :=
  (r.date, r.base_currency, r.target_currency)

end ExchangeRate

/-- The dict `{entry.date: entry for entry in data}` looked up at `d`:
the last entry of `data` with that date wins. -/
def dateLookup (data : List ExchangeRate) (d : Int) : Option ExchangeRate :=
  data.reverse.find? (fun e => e.date = d)

/-- The body of the `while current_date <= end_date` loop of
`ECBClient._fill_missing_dates`, run for `n` remaining days starting at
`cur`, with `last` the current `last_conversion`.  Returns the
`complete_data` list and the list of dates the code logs a
missing-history warning for. -/
def fillLoop (lookup : Int → Option ExchangeRate) :
    Nat → Int → Option ExchangeRate → List ExchangeRate × List Int
  | 0, _, _ => ([], [])
  | n + 1, cur, last =>
    match lookup cur with
    | some e =>
        (⟨cur, e.base_currency, e.target_currency, e.exchange_rate⟩ ::
            (fillLoop lookup n (cur + 1) (some e)).1,
          (fillLoop lookup n (cur + 1) (some e)).2)
    | none =>
        match last with
        | some e =>
            (⟨cur, e.base_currency, e.target_currency, e.exchange_rate⟩ ::
                (fillLoop lookup n (cur + 1) (some e)).1,
              (fillLoop lookup n (cur + 1) (some e)).2)
        | none =>
            ((fillLoop lookup n (cur + 1) none).1,
              cur :: (fillLoop lookup n (cur + 1) none).2)

/-- `ECBClient._fill_missing_dates` with an explicit `end_date`.  On empty
input Python raises from `min({})`; the embedding returns `([], [])` there
(no claim concerns the empty case). -/
def fillMissingDates (data : List ExchangeRate) (end_date : Int) :
    List ExchangeRate × List Int :=
  match (data.map (fun e => e.date)).min? with
  | none => ([], [])
  | some m => fillLoop (dateLookup data) (end_date - m + 1).toNat m none

/-- One step of `RateCalculator.__init__`'s inversion loop, as a queue:
`done` is the already-visited prefix of `self.rates`, `todo` the rest;
`self.rates.append` appends at the end of `todo`. -/
def initLoop (c : String) :
    Nat → List ExchangeRate → List ExchangeRate → List ExchangeRate
  | 0, done, todo => done ++ todo
  | _ + 1, done, [] => done
  | fuel + 1, done, r :: todo =>
    if r.base_currency = c then
      initLoop c fuel (done ++ [r]) (todo ++ [r.invert])
    else
      initLoop c fuel (done ++ [r]) todo

/-- The working set `self.rates` after `RateCalculator.__init__` on input
pool `P` with pivot `c`. -/
def initRates (c : String) (P : List ExchangeRate) : List ExchangeRate :=
  initLoop c (2 * P.length + 1) [] P

/-- The keys of `self.by_date` in insertion (first-occurrence) order. -/
def byDateKeys (rates : List ExchangeRate) : List Int :=
  rates.foldl (fun acc r => if r.date ∈ acc then acc else acc ++ [r.date]) []

/-- The group `self.by_date[d]`: the rates with date `d`, in list order. -/
def ratesOn (rates : List ExchangeRate) (d : Int) : List ExchangeRate :=
  rates.filter (fun r => r.date = d)

/-- `base_rates[tgt]` for one date group: the dict comprehension keeps the
last matching rate, embedded as a backwards search. -/
def lookupBase (pivot : String) (rsD : List ExchangeRate) (tgt : String) :
    Option ExchangeRate :=
  rsD.reverse.find?
    (fun r => r.base_currency = pivot ∧ r.target_currency = tgt)

/-- The observations appended for one date group `rsD` and one requested
base `B` (the innermost `for rate in rates` loop of
`calculate_rebased_rates`, with its three `continue` guards). -/
def derivedFor (pivot : String) (rsD : List ExchangeRate) (B : String) :
    List ExchangeRate :=
  rsD.flatMap fun r =>
    if r.base_currency ≠ pivot then []
    else if r.target_currency = B then []
    else
      match lookupBase pivot rsD B with
      | none => []
      | some l =>
        match r.rebase B l with
        | Except.ok x => [x]
        | Except.error _ => []

/-- The observations appended for one date group (the `for new_base in
currencies` loop, skipping the pivot itself). -/
def calcAtDate (pivot : String) (rsD : List ExchangeRate)
    (currencies : List String) : List ExchangeRate :=
  currencies.flatMap fun B => if B = pivot then [] else derivedFor pivot rsD B

/-- Everything `calculate_rebased_rates` appends beyond the initial
`self.rates.copy()`. -/
def derivations (rates : List ExchangeRate) (pivot : String)
    (currencies : List String) : List ExchangeRate :=
  (byDateKeys rates).flatMap fun d => calcAtDate pivot (ratesOn rates d) currencies

/-- `RateCalculator.calculate_rebased_rates`, as a function of the working
set `rates` (= `self.rates`), the pivot (= `self.base_currency`) and the
requested currency list. -/
def calculate_rebased_rates (rates : List ExchangeRate) (pivot : String)
    (currencies : List String) : List ExchangeRate :=
  rates ++ derivations rates pivot currencies

/-! Sample observations used by concrete witnesses and counterexamples. -/

def sampleEURUSD : ExchangeRate := ⟨0, "EUR", "USD", 2⟩

def sampleEURGBP : ExchangeRate := ⟨0, "EUR", "GBP", 4⟩

def sampleUSDEUR : ExchangeRate := ⟨0, "USD", "EUR", 2⟩

def sampleGBPJPY : ExchangeRate := ⟨0, "GBP", "JPY", 2⟩

/-- C5: for every observation with positive rate, `invert` is an involution:
`r.invert().invert()` has the same date, currencies and rate as `r`. -/
theorem invert_invert (r : ExchangeRate) (h : 0 < r.exchange_rate) :
    r.invert.invert = r := by
  obtain ⟨d, b, t, x⟩ := r
  simp [ExchangeRate.invert, one_div_one_div]

theorem invert_invert_witness :
    0 < sampleEURUSD.exchange_rate ∧ sampleEURUSD.invert.invert = sampleEURUSD :=
  ⟨by norm_num [sampleEURUSD], invert_invert sampleEURUSD (by norm_num [sampleEURUSD])⟩

/-- C7: rebasing to the observation's own base currency is the identity and
never raises, whatever the lookup observation is. -/
theorem rebase_self (r l : ExchangeRate) :
    r.rebase r.base_currency l = Except.ok r := by
  simp [ExchangeRate.rebase]

/-- C6 counterexample: with `new_base_currency` equal to the observation's
own base, `rebase` returns successfully even though the lookup observation's
currencies match no pivot relationship (its base differs from the
observation's base and its target differs from the new base), whereas the
claim says it must fail there. -/
theorem rebase_mismatch_counterexample :
    (sampleGBPJPY.base_currency ≠ sampleEURUSD.base_currency ∧
      sampleGBPJPY.target_currency ≠ "EUR") ∧
    sampleEURUSD.rebase "EUR" sampleGBPJPY = Except.ok sampleEURUSD := by
  constructor
  · decide
  · simp [ExchangeRate.rebase, sampleEURUSD, sampleGBPJPY]

/-- C6 (amended): provided the new base differs from the observation's own
base currency, `rebase` fails exactly when the lookup's base differs from
the observation's base or the lookup's target differs from the new base;
otherwise it returns the recomposed observation. -/
theorem rebase_error_iff (r l : ExchangeRate) (nb : String)
    (h : nb ≠ r.base_currency) :
    ((∃ msg, r.rebase nb l = Except.error msg) ↔
      l.base_currency ≠ r.base_currency ∨ l.target_currency ≠ nb) ∧
    (l.base_currency = r.base_currency → l.target_currency = nb →
      r.rebase nb l = Except.ok
        ⟨r.date, nb, r.target_currency,
          1 / l.exchange_rate * r.exchange_rate⟩) := by
  unfold ExchangeRate.rebase
  rw [if_neg h]
  by_cases h1 : nb = l.target_currency
  · rw [if_neg (not_not_intro h1)]
    by_cases h2 : r.base_currency = l.base_currency
    · rw [if_neg (not_not_intro h2)]
      exact ⟨by simp [h1, h2], fun _ _ => rfl⟩
    · rw [if_pos h2]
      refine ⟨⟨fun _ => Or.inl fun hh => h2 hh.symm, fun _ => ⟨_, rfl⟩⟩, ?_⟩
      intro hb _
      exact absurd hb.symm h2
  · rw [if_pos h1]
    refine ⟨⟨fun _ => Or.inr fun hh => h1 hh.symm, fun _ => ⟨_, rfl⟩⟩, ?_⟩
    intro _ ht
    exact absurd ht.symm h1

theorem rebase_error_iff_witness :
    ("USD" ≠ sampleEURGBP.base_currency) ∧
    (((∃ msg, sampleEURGBP.rebase "USD" sampleEURUSD = Except.error msg) ↔
      sampleEURUSD.base_currency ≠ sampleEURGBP.base_currency ∨
        sampleEURUSD.target_currency ≠ "USD") ∧
    (sampleEURUSD.base_currency = sampleEURGBP.base_currency →
      sampleEURUSD.target_currency = "USD" →
      sampleEURGBP.rebase "USD" sampleEURUSD = Except.ok
        ⟨sampleEURGBP.date, "USD", sampleEURGBP.target_currency,
          1 / sampleEURUSD.exchange_rate * sampleEURGBP.exchange_rate⟩)) :=
  ⟨by decide, rebase_error_iff sampleEURGBP sampleEURUSD "USD" (by decide)⟩

/-! Facts about `dateLookup`. -/

theorem dateLookup_some {data : List ExchangeRate} {d : Int}
    {e : ExchangeRate} (h : dateLookup data d = some e) :
    e ∈ data ∧ e.date = d := by
  refine ⟨List.mem_reverse.mp (List.mem_of_find?_eq_some h), ?_⟩
  have := List.find?_some h
  simpa using this

theorem dateLookup_eq_none {data : List ExchangeRate} {d : Int} :
    dateLookup data d = none ↔ ∀ e ∈ data, e.date ≠ d := by
  unfold dateLookup
  rw [List.find?_eq_none]
  constructor
  · intro h e he
    have := h e (List.mem_reverse.mpr he)
    simpa using this
  · intro h e he
    simpa using h e (List.mem_reverse.mp he)

/-- The spec-side per-day contract of the gap filler: an emitted observation
either copies the input entry of its own date, or — when its date is absent
from the input — copies the input entry with the greatest date below it
(last-observation-carry-forward). -/
def lastKnownProp (data : List ExchangeRate) (o : ExchangeRate) : Prop :=
  (∃ e ∈ data, e.date = o.date ∧ o.base_currency = e.base_currency ∧
      o.target_currency = e.target_currency ∧
      o.exchange_rate = e.exchange_rate) ∨
  ((∀ e ∈ data, e.date ≠ o.date) ∧
    ∃ e ∈ data, e.date < o.date ∧
      (∀ e' ∈ data, e'.date < o.date → e'.date ≤ e.date) ∧
      o.base_currency = e.base_currency ∧
      o.target_currency = e.target_currency ∧
      o.exchange_rate = e.exchange_rate)

theorem rangeMap_succ (n : Nat) (c : Int) :
    (List.range (n + 1)).map (fun i : Nat => c + (i : Int)) =
      c :: (List.range n).map (fun i : Nat => (c + 1) + (i : Int)) := by
  rw [List.range_succ_eq_map, List.map_cons, List.map_map]
  refine congrArg₂ _ (by norm_num) (List.map_congr_left ?_)
  intro i _
  simp only [Function.comp, Nat.succ_eq_add_one]
  push_cast
  ring

/-- Loop invariant for `fillLoop`: once a carry `e₀` (the maximal input entry
strictly below `cur`) is present, the loop warns never, emits exactly one
observation per remaining day, and every emitted observation satisfies the
carry-forward contract. -/
theorem fillLoop_go (data : List ExchangeRate) :
    ∀ (n : Nat) (cur : Int) (e₀ : ExchangeRate),
      e₀ ∈ data → e₀.date < cur →
      (∀ e ∈ data, e.date < cur → e.date ≤ e₀.date) →
      (fillLoop (dateLookup data) n cur (some e₀)).2 = [] ∧
      (fillLoop (dateLookup data) n cur (some e₀)).1.map (fun o => o.date) =
        (List.range n).map (fun i : Nat => cur + (i : Int)) ∧
      ∀ o ∈ (fillLoop (dateLookup data) n cur (some e₀)).1,
        lastKnownProp data o := by
  intro n
  induction n with
  | zero => intro cur e₀ _ _ _; simp [fillLoop]
  | succ n ih =>
    intro cur e₀ hmem hlt hmax
    cases hl : dateLookup data cur with
    | some e =>
      obtain ⟨hemem, hedate⟩ := dateLookup_some hl
      have hstep := ih (cur + 1) e hemem (by omega)
        (fun e' he' hlt' => by rw [hedate]; omega)
      refine ⟨?_, ?_, ?_⟩
      · simpa [fillLoop, hl] using hstep.1
      · rw [rangeMap_succ]
        simpa [fillLoop, hl] using hstep.2.1
      · intro o ho
        simp only [fillLoop, hl, List.mem_cons] at ho
        rcases ho with rfl | ho
        · exact Or.inl ⟨e, hemem, hedate, rfl, rfl, rfl⟩
        · exact hstep.2.2 o ho
    | none =>
      have hnone : ∀ e ∈ data, e.date ≠ cur := dateLookup_eq_none.mp hl
      have hstep := ih (cur + 1) e₀ hmem (by omega)
        (fun e' he' hlt' => by
          rcases lt_or_eq_of_le (show e'.date ≤ cur by omega) with h | h
          · exact hmax e' he' h
          · exact absurd h (hnone e' he'))
      refine ⟨?_, ?_, ?_⟩
      · simpa [fillLoop, hl] using hstep.1
      · rw [rangeMap_succ]
        simpa [fillLoop, hl] using hstep.2.1
      · intro o ho
        simp only [fillLoop, hl, List.mem_cons] at ho
        rcases ho with rfl | ho
        · exact Or.inr ⟨hnone, e₀, hmem, hlt, fun e' he' h => hmax e' he' h,
            rfl, rfl, rfl⟩
        · exact hstep.2.2 o ho

/-- Full behaviour of `fillMissingDates` on non-empty input whose minimum
date is at most `end_date`: no warning is ever logged, the output dates are
exactly the days `m, m + 1, ..., end_date`, and every output observation
satisfies the carry-forward contract. -/
theorem fillMissingDates_spec (data : List ExchangeRate) (m end_date : Int)
    (hm : (data.map (fun e => e.date)).min? = some m)
    (hend : m ≤ end_date) :
    (fillMissingDates data end_date).2 = [] ∧
    (fillMissingDates data end_date).1.map (fun o => o.date) =
      (List.range (end_date - m + 1).toNat).map
        (fun i : Nat => m + (i : Int)) ∧
    ∀ o ∈ (fillMissingDates data end_date).1, lastKnownProp data o := by
  have hmem : m ∈ data.map (fun e => e.date) :=
    List.min?_mem (fun x y : Int => min_choice x y) hm
  have hle : ∀ b ∈ data.map (fun e => e.date), m ≤ b :=
    (List.le_min?_iff (fun a b c : Int => le_min_iff) hm).mp le_rfl
  obtain ⟨em, hemmem, hemdate⟩ := List.mem_map.mp hmem
  have htn : (end_date - m + 1).toNat = (end_date - m).toNat + 1 := by omega
  cases hl : dateLookup data m with
  | none =>
    exact absurd hemdate (dateLookup_eq_none.mp hl em hemmem)
  | some e1 =>
    obtain ⟨h1mem, h1date⟩ := dateLookup_some hl
    have hstep := fillLoop_go data (end_date - m).toNat (m + 1) e1 h1mem
      (by omega)
      (fun e' he' hlt' => by
        have := hle e'.date (List.mem_map.mpr ⟨e', he', rfl⟩)
        omega)
    have hunfold : fillMissingDates data end_date =
        (⟨m, e1.base_currency, e1.target_currency, e1.exchange_rate⟩ ::
            (fillLoop (dateLookup data) (end_date - m).toNat (m + 1)
              (some e1)).1,
          (fillLoop (dateLookup data) (end_date - m).toNat (m + 1)
            (some e1)).2) := by
      rw [fillMissingDates, hm]
      show fillLoop (dateLookup data) (end_date - m + 1).toNat m none = _
      rw [htn]
      simp [fillLoop, hl]
    refine ⟨?_, ?_, ?_⟩
    · rw [hunfold]
      exact hstep.1
    · rw [hunfold, htn, rangeMap_succ]
      simpa using hstep.2.1
    · intro o ho
      rw [hunfold] at ho
      rcases List.mem_cons.mp ho with rfl | ho
      · exact Or.inl ⟨e1, h1mem, h1date, rfl, rfl, rfl⟩
      · exact hstep.2.2 o ho

/-- C2: for a non-empty input (at most one observation per date, all for the
same currency pair `b`/`t`) and an `end_date` at or after the earliest input
date `m`, `fillMissingDates` emits no warning and returns exactly one
observation per day `m, ..., end_date` in strictly increasing date order
with no duplicates; each observation keeps the currency pair, and its rate
is the input rate of its own date when present, otherwise the rate of the
latest earlier input date (last-observation-carry-forward). -/
theorem fill_missing_dates_correct (data : List ExchangeRate) (b t : String)
    (m end_date : Int)
    (hne : data ≠ [])
    (hnodup : (data.map (fun e => e.date)).Nodup)
    (hpair : ∀ e ∈ data, e.base_currency = b ∧ e.target_currency = t)
    (hm : (data.map (fun e => e.date)).min? = some m)
    (hend : m ≤ end_date) :
    (fillMissingDates data end_date).2 = [] ∧
    (fillMissingDates data end_date).1.map (fun o => o.date) =
      (List.range (end_date - m + 1).toNat).map
        (fun i : Nat => m + (i : Int)) ∧
    ((fillMissingDates data end_date).1.map (fun o => o.date)).Nodup ∧
    (∀ o ∈ (fillMissingDates data end_date).1,
      o.base_currency = b ∧ o.target_currency = t) ∧
    ∀ o ∈ (fillMissingDates data end_date).1, lastKnownProp data o := by
  obtain ⟨hwarn, hdates, hprop⟩ := fillMissingDates_spec data m end_date hm hend
  refine ⟨hwarn, hdates, ?_, ?_, hprop⟩
  · rw [hdates]
    exact (List.nodup_range _).map fun i j hij => by omega
  · intro o ho
    rcases hprop o ho with ⟨e, he, _, hb, ht, _⟩ | ⟨_, e, he, _, _, hb, ht, _⟩ <;>
      exact ⟨hb.trans (hpair e he).1, ht.trans (hpair e he).2⟩

theorem fill_missing_dates_correct_witness :
    ([sampleEURUSD] ≠ ([] : List ExchangeRate) ∧
      (([sampleEURUSD].map (fun e => e.date)).Nodup) ∧
      (∀ e ∈ [sampleEURUSD], e.base_currency = "EUR" ∧
        e.target_currency = "USD") ∧
      ([sampleEURUSD].map (fun e => e.date)).min? = some 0 ∧
      (0 : Int) ≤ 2) ∧
    ((fillMissingDates [sampleEURUSD] 2).2 = [] ∧
      (fillMissingDates [sampleEURUSD] 2).1.map (fun o => o.date) =
        (List.range ((2 : Int) - 0 + 1).toNat).map
          (fun i : Nat => (0 : Int) + (i : Int)) ∧
      ((fillMissingDates [sampleEURUSD] 2).1.map (fun o => o.date)).Nodup ∧
      (∀ o ∈ (fillMissingDates [sampleEURUSD] 2).1,
        o.base_currency = "EUR" ∧ o.target_currency = "USD") ∧
      ∀ o ∈ (fillMissingDates [sampleEURUSD] 2).1,
        lastKnownProp [sampleEURUSD] o) :=
  ⟨⟨by decide, by decide, by decide, by decide, by decide⟩,
    fill_missing_dates_correct [sampleEURUSD] "EUR" "USD" 0 2
      (by decide) (by decide) (by decide) (by decide) (by decide)⟩

def sampleLate : ExchangeRate := ⟨3, "EUR", "USD", 2⟩

/-- C8 counterexample: for an input whose earliest known date is day 3 and a
requested range reaching back before it (the requested start is not even an
input of the gap filler; iteration starts at the earliest known date), the
output indeed begins at day 3 — but the warning list is empty: no
missing-history diagnostic is surfaced for the preceding days, contrary to
the claim. -/
theorem fill_no_warning_counterexample :
    (fillMissingDates [sampleLate] 5).2 = [] ∧
    (fillMissingDates [sampleLate] 5).1.map (fun o => o.date) = [3, 4, 5] := by
  decide

/-- C8 (amended): days before the earliest known input date are never
iterated by the gap filler: the output contains no observation dated before
the earliest known date and begins exactly at that date — but no
warning-class diagnostic is surfaced for those days (the loop starts at the
earliest known date, so its missing-history branch never fires on non-empty
input). -/
theorem fill_no_early_dates (data : List ExchangeRate) (m end_date : Int)
    (hm : (data.map (fun e => e.date)).min? = some m)
    (hend : m ≤ end_date) :
    (fillMissingDates data end_date).2 = [] ∧
    (∀ o ∈ (fillMissingDates data end_date).1, m ≤ o.date) ∧
    ((fillMissingDates data end_date).1.head?).map (fun o => o.date) =
      some m := by
  obtain ⟨hwarn, hdates, _⟩ := fillMissingDates_spec data m end_date hm hend
  have htn : (end_date - m + 1).toNat = (end_date - m).toNat + 1 := by omega
  refine ⟨hwarn, ?_, ?_⟩
  · intro o ho
    have : o.date ∈ (fillMissingDates data end_date).1.map (fun o => o.date) :=
      List.mem_map.mpr ⟨o, ho, rfl⟩
    rw [hdates] at this
    obtain ⟨i, _, hi⟩ := List.mem_map.mp this
    omega
  · have := congrArg List.head? hdates
    rw [List.head?_map, htn, rangeMap_succ] at this
    simp only [List.head?_cons] at this
    exact this

theorem fill_no_early_dates_witness :
    (([sampleLate].map (fun e => e.date)).min? = some 3 ∧ (3 : Int) ≤ 5) ∧
    ((fillMissingDates [sampleLate] 5).2 = [] ∧
      (∀ o ∈ (fillMissingDates [sampleLate] 5).1, (3 : Int) ≤ o.date) ∧
      ((fillMissingDates [sampleLate] 5).1.head?).map (fun o => o.date) =
        some 3) :=
  ⟨⟨by decide, by decide⟩, fill_no_early_dates [sampleLate] 3 5 (by decide) (by decide)⟩

/-- If nothing in the queue has the pivot as base, the inversion loop only
drains the queue. -/
theorem initLoop_no_base (c : String) :
    ∀ (todo : List ExchangeRate) (fuel : Nat) (done : List ExchangeRate),
      (∀ x ∈ todo, x.base_currency ≠ c) → todo.length ≤ fuel →
      initLoop c fuel done todo = done ++ todo := by
  intro todo
  induction todo with
  | nil => intro fuel done _ _; cases fuel <;> simp [initLoop]
  | cons r todo ih =>
    intro fuel done hne hlen
    cases fuel with
    | zero => simp at hlen
    | succ fuel =>
      have hr : r.base_currency ≠ c := hne r (by simp)
      rw [show initLoop c (fuel + 1) done (r :: todo) =
          initLoop c fuel (done ++ [r]) todo by simp [initLoop, hr]]
      rw [ih fuel (done ++ [r]) (fun x hx => hne x (by simp [hx]))
        (by simpa using Nat.le_of_succ_le_succ hlen)]
      simp

/-- Main invariant of the inversion loop: processing `P ++ acc` where `acc`
holds pivot-free already-materialized inverses appends exactly one inverse
per pivot-based element of `P`, in order. -/
theorem initLoop_main (c : String) :
    ∀ (P acc done : List ExchangeRate) (fuel : Nat),
      (∀ x ∈ acc, x.base_currency ≠ c) →
      (∀ x ∈ P, x.base_currency = c → x.target_currency ≠ c) →
      2 * P.length + acc.length ≤ fuel →
      initLoop c fuel done (P ++ acc) =
        done ++ P ++ acc ++
          (P.filter (fun r => r.base_currency = c)).map ExchangeRate.invert := by
  intro P
  induction P with
  | nil =>
    intro acc done fuel hacc _ hfuel
    rw [List.nil_append,
      initLoop_no_base c acc fuel done hacc (by simpa using hfuel)]
    simp
  | cons r P ih =>
    intro acc done fuel hacc hP hfuel
    cases fuel with
    | zero =>
      rw [List.length_cons] at hfuel
      omega
    | succ fuel =>
      by_cases hr : r.base_currency = c
      · have hrt : r.target_currency ≠ c := hP r (by simp) hr
        rw [show initLoop c (fuel + 1) done ((r :: P) ++ acc) =
            initLoop c fuel (done ++ [r]) ((P ++ acc) ++ [r.invert]) by
          simp [initLoop, hr]]
        rw [show (P ++ acc) ++ [r.invert] = P ++ (acc ++ [r.invert]) by simp]
        rw [ih (acc ++ [r.invert]) (done ++ [r]) fuel
          (fun x hx => by
            rcases List.mem_append.mp hx with hx | hx
            · exact hacc x hx
            · simp only [List.mem_singleton] at hx
              subst hx
              exact hrt)
          (fun x hx hb => hP x (by simp [hx]) hb)
          (by simp at hfuel ⊢; omega)]
        simp [List.filter_cons, hr]
      · rw [show initLoop c (fuel + 1) done ((r :: P) ++ acc) =
            initLoop c fuel (done ++ [r]) (P ++ acc) by simp [initLoop, hr]]
        rw [ih acc (done ++ [r]) fuel hacc
          (fun x hx hb => hP x (by simp [hx]) hb)
          (by simp at hfuel ⊢; omega)]
        simp [List.filter_cons, hr]

/-- C4: on a pool `P` in which no pivot-based observation targets the pivot,
the constructor's working set is exactly `P` followed by one inverse
(currencies swapped, rate reciprocated) for each pivot-based observation of
`P`, in order — the materialized inverses, whose base is not the pivot, are
not inverted again even though the loop traverses the growing list. -/
theorem init_rates_eq (c : String) (P : List ExchangeRate)
    (h : ∀ r ∈ P, r.base_currency = c → r.target_currency ≠ c) :
    initRates c P =
      P ++ (P.filter (fun r => r.base_currency = c)).map ExchangeRate.invert := by
  have hmain := initLoop_main c P [] [] (2 * P.length + 1) (by simp) h (by simp)
  rw [initRates]
  simpa using hmain

theorem init_rates_eq_witness :
    (∀ r ∈ [sampleEURUSD, sampleGBPJPY],
      r.base_currency = "EUR" → r.target_currency ≠ "EUR") ∧
    initRates "EUR" [sampleEURUSD, sampleGBPJPY] =
      [sampleEURUSD, sampleGBPJPY] ++
        (([sampleEURUSD, sampleGBPJPY].filter
          (fun r => r.base_currency = "EUR")).map ExchangeRate.invert) :=
  ⟨by decide, init_rates_eq "EUR" [sampleEURUSD, sampleGBPJPY] (by decide)⟩

/-! Facts about the calculator's lookup structures. -/

theorem mem_ratesOn {rates : List ExchangeRate} {d : Int} {r : ExchangeRate} :
    r ∈ ratesOn rates d ↔ r ∈ rates ∧ r.date = d := by
  simp [ratesOn]

theorem lookupBase_some {pivot tgt : String} {rsD : List ExchangeRate}
    {l : ExchangeRate} (h : lookupBase pivot rsD tgt = some l) :
    l ∈ rsD ∧ l.base_currency = pivot ∧ l.target_currency = tgt := by
  refine ⟨List.mem_reverse.mp (List.mem_of_find?_eq_some h), ?_⟩
  have := List.find?_some h
  simp at this
  exact this

theorem foldlKeys_mem :
    ∀ (l : List ExchangeRate) (acc : List Int) (d : Int),
      (d ∈ l.foldl (fun a r => if r.date ∈ a then a else a ++ [r.date]) acc) ↔
        d ∈ acc ∨ ∃ r ∈ l, r.date = d := by
  intro l
  induction l with
  | nil => intro acc d; simp
  | cons r l ih =>
    intro acc d
    rw [List.foldl_cons, ih]
    by_cases h : r.date ∈ acc
    · rw [if_pos h]
      constructor
      · rintro (hd | ⟨x, hx, hxd⟩)
        · exact Or.inl hd
        · exact Or.inr ⟨x, List.mem_cons_of_mem r hx, hxd⟩
      · rintro (hd | ⟨x, hx, hxd⟩)
        · exact Or.inl hd
        · rcases List.mem_cons.mp hx with rfl | hx
          · exact Or.inl (hxd ▸ h)
          · exact Or.inr ⟨x, hx, hxd⟩
    · rw [if_neg h]
      constructor
      · rintro (hd | ⟨x, hx, hxd⟩)
        · rcases List.mem_append.mp hd with hd | hd
          · exact Or.inl hd
          · refine Or.inr ⟨r, List.mem_cons_self r l, ?_⟩
            have hdr : d = r.date := by simpa using hd
            exact hdr.symm
        · exact Or.inr ⟨x, List.mem_cons_of_mem r hx, hxd⟩
      · rintro (hd | ⟨x, hx, hxd⟩)
        · exact Or.inl (List.mem_append.mpr (Or.inl hd))
        · rcases List.mem_cons.mp hx with rfl | hx
          · exact Or.inl (List.mem_append.mpr (Or.inr (by simp [hxd])))
          · exact Or.inr ⟨x, hx, hxd⟩

theorem mem_byDateKeys {rates : List ExchangeRate} {d : Int} :
    d ∈ byDateKeys rates ↔ ∃ r ∈ rates, r.date = d := by
  rw [byDateKeys, foldlKeys_mem]
  simp

theorem foldlKeys_nodup :
    ∀ (l : List ExchangeRate) (acc : List Int), acc.Nodup →
      (l.foldl (fun a r => if r.date ∈ a then a else a ++ [r.date]) acc).Nodup := by
  intro l
  induction l with
  | nil => intro acc h; simpa using h
  | cons r l ih =>
    intro acc h
    rw [List.foldl_cons]
    by_cases hm : r.date ∈ acc
    · rw [if_pos hm]
      exact ih acc h
    · rw [if_neg hm]
      refine ih _ ?_
      simp [List.nodup_append, h, hm]

theorem byDateKeys_nodup (rates : List ExchangeRate) :
    (byDateKeys rates).Nodup :=
  foldlKeys_nodup rates [] (by simp)

/-- Every `rebase` call actually reached by `calculate_rebased_rates`
(base is the pivot, target base is not, the lookup has the pivot as base and
the target base as target) succeeds. -/
theorem rebase_ok_of_guards {r l : ExchangeRate} {pivot B : String}
    (hrb : r.base_currency = pivot) (hB : B ≠ pivot)
    (hlb : l.base_currency = pivot) (hlt : l.target_currency = B) :
    r.rebase B l = Except.ok
      ⟨r.date, B, r.target_currency,
        1 / l.exchange_rate * r.exchange_rate⟩ := by
  unfold ExchangeRate.rebase
  rw [if_neg (by rw [hrb]; exact hB), if_neg (not_not_intro hlt.symm),
    if_neg (not_not_intro (hrb.trans hlb.symm))]

/-- Characterization of the per-(date, base) derivation list. -/
theorem mem_derivedFor {pivot B : String} {rsD : List ExchangeRate}
    (hB : B ≠ pivot) {x : ExchangeRate} :
    x ∈ derivedFor pivot rsD B ↔
      ∃ r ∈ rsD, r.base_currency = pivot ∧ r.target_currency ≠ B ∧
        ∃ l, lookupBase pivot rsD B = some l ∧
          x = ⟨r.date, B, r.target_currency,
            1 / l.exchange_rate * r.exchange_rate⟩ := by
  unfold derivedFor
  rw [List.mem_flatMap]
  constructor
  · rintro ⟨r, hr, hx⟩
    by_cases h1 : r.base_currency = pivot
    · rw [if_neg (not_not_intro h1)] at hx
      by_cases h2 : r.target_currency = B
      · rw [if_pos h2] at hx
        simp at hx
      · rw [if_neg h2] at hx
        cases hl : lookupBase pivot rsD B with
        | none => rw [hl] at hx; simp at hx
        | some l =>
          obtain ⟨_, hlb, hlt⟩ := lookupBase_some hl
          simp only [hl, rebase_ok_of_guards h1 hB hlb hlt,
            List.mem_singleton] at hx
          exact ⟨r, hr, h1, h2, l, rfl, hx⟩
    · rw [if_pos h1] at hx
      simp at hx
  · rintro ⟨r, hr, h1, h2, l, hl, rfl⟩
    refine ⟨r, hr, ?_⟩
    obtain ⟨_, hlb, hlt⟩ := lookupBase_some hl
    rw [if_neg (not_not_intro h1), if_neg h2]
    simp only [hl, rebase_ok_of_guards h1 hB hlb hlt, List.mem_singleton]

theorem mem_calcAtDate {pivot : String} {rsD : List ExchangeRate}
    {currencies : List String} {x : ExchangeRate} :
    x ∈ calcAtDate pivot rsD currencies ↔
      ∃ B ∈ currencies, B ≠ pivot ∧ x ∈ derivedFor pivot rsD B := by
  unfold calcAtDate
  rw [List.mem_flatMap]
  constructor
  · rintro ⟨B, hB, hx⟩
    by_cases h : B = pivot
    · rw [if_pos h] at hx
      simp at hx
    · rw [if_neg h] at hx
      exact ⟨B, hB, h, hx⟩
  · rintro ⟨B, hB, h, hx⟩
    exact ⟨B, hB, by rw [if_neg h]; exact hx⟩

theorem mem_derivations {rates : List ExchangeRate} {pivot : String}
    {currencies : List String} {x : ExchangeRate} :
    x ∈ derivations rates pivot currencies ↔
      ∃ d ∈ byDateKeys rates, x ∈ calcAtDate pivot (ratesOn rates d) currencies := by
  unfold derivations
  exact List.mem_flatMap

/-- C1: for every pooled observation `r` with pivot base, every requested
base `B` distinct from the pivot with `r`'s target not equal to `B`, if a
pivot-to-`B` lookup observation `l` exists for `r`'s date, then
`calculate_rebased_rates` outputs a derived observation with the same date,
base `B`, target `r.target_currency`, and rate
`r.exchange_rate / l.exchange_rate` (the code computes
`(1 / l.exchange_rate) * r.exchange_rate`, the same value). -/
theorem calc_adds_cross_rate (rates : List ExchangeRate) (pivot : String)
    (currencies : List String) (B : String) (r l : ExchangeRate)
    (hB : B ∈ currencies) (hBp : B ≠ pivot) (hr : r ∈ rates)
    (hrb : r.base_currency = pivot) (hrt : r.target_currency ≠ B)
    (hl : lookupBase pivot (ratesOn rates r.date) B = some l) :
    (⟨r.date, B, r.target_currency, r.exchange_rate / l.exchange_rate⟩ :
      ExchangeRate) ∈ calculate_rebased_rates rates pivot currencies := by
  have hd : r.date ∈ byDateKeys rates := mem_byDateKeys.mpr ⟨r, hr, rfl⟩
  have hmem : r ∈ ratesOn rates r.date := mem_ratesOn.mpr ⟨hr, rfl⟩
  have hx : (⟨r.date, B, r.target_currency,
      1 / l.exchange_rate * r.exchange_rate⟩ : ExchangeRate) ∈
      derivedFor pivot (ratesOn rates r.date) B :=
    (mem_derivedFor hBp).mpr ⟨r, hmem, hrb, hrt, l, hl, rfl⟩
  have heq : (⟨r.date, B, r.target_currency,
      r.exchange_rate / l.exchange_rate⟩ : ExchangeRate) =
      ⟨r.date, B, r.target_currency,
        1 / l.exchange_rate * r.exchange_rate⟩ := by
    simp [ExchangeRate.mk.injEq]
    ring
  rw [heq, calculate_rebased_rates, List.mem_append]
  exact Or.inr (mem_derivations.mpr
    ⟨r.date, hd, mem_calcAtDate.mpr ⟨B, hB, hBp, hx⟩⟩)

theorem calc_adds_cross_rate_witness :
    ("USD" ∈ ["USD"] ∧ "USD" ≠ "EUR" ∧
      sampleEURGBP ∈ [sampleEURUSD, sampleEURGBP] ∧
      sampleEURGBP.base_currency = "EUR" ∧
      sampleEURGBP.target_currency ≠ "USD" ∧
      lookupBase "EUR" (ratesOn [sampleEURUSD, sampleEURGBP]
        sampleEURGBP.date) "USD" = some sampleEURUSD) ∧
    (⟨sampleEURGBP.date, "USD", sampleEURGBP.target_currency,
        sampleEURGBP.exchange_rate / sampleEURUSD.exchange_rate⟩ :
      ExchangeRate) ∈
      calculate_rebased_rates [sampleEURUSD, sampleEURGBP] "EUR" ["USD"] :=
  ⟨⟨by decide, by decide, by decide, by decide, by decide, by decide⟩,
    calc_adds_cross_rate [sampleEURUSD, sampleEURGBP] "EUR" ["USD"] "USD"
      sampleEURGBP sampleEURUSD (by decide) (by decide) (by decide)
      (by decide) (by decide) (by decide)⟩

/-- C10: when every requested currency equals the pivot, the derivation
loops contribute nothing: `calculate_rebased_rates` returns exactly the
constructor's working set (the pooled observations plus the inverses
materialized at construction). -/
theorem calc_pivot_only (P : List ExchangeRate) (pivot : String)
    (currencies : List String) (hc : ∀ B ∈ currencies, B = pivot) :
    calculate_rebased_rates (initRates pivot P) pivot currencies =
      initRates pivot P := by
  rw [calculate_rebased_rates]
  have hnil : derivations (initRates pivot P) pivot currencies = [] := by
    rw [derivations, List.flatMap_eq_nil_iff]
    intro d _
    rw [calcAtDate, List.flatMap_eq_nil_iff]
    intro B hB
    rw [if_pos (hc B hB)]
  rw [hnil, List.append_nil]

theorem calc_pivot_only_witness :
    (∀ B ∈ ["EUR"], B = "EUR") ∧
    calculate_rebased_rates (initRates "EUR" [sampleEURUSD]) "EUR" ["EUR"] =
      initRates "EUR" [sampleEURUSD] :=
  ⟨by decide, calc_pivot_only [sampleEURUSD] "EUR" ["EUR"] (by decide)⟩

/-- C9: if no pivot-to-`B` lookup exists for date `d`, then no derived
observation with date `d` and base `B` ever appears among the appended
derivations — and this is non-fatal: every rebase call actually reached
still succeeds (nothing raises), and every other (date, base) combination
with a lookup still sees its derived observation in the output. -/
theorem missing_lookup_skips (W : List ExchangeRate) (pivot : String)
    (currencies : List String) (d : Int) (B : String)
    (hnone : lookupBase pivot (ratesOn W d) B = none) :
    (∀ x ∈ derivations W pivot currencies,
      ¬(x.date = d ∧ x.base_currency = B)) ∧
    (∀ d' ∈ byDateKeys W, ∀ B' ∈ currencies, B' ≠ pivot →
      ∀ r ∈ ratesOn W d', r.base_currency = pivot → r.target_currency ≠ B' →
        ∀ l, lookupBase pivot (ratesOn W d') B' = some l →
          r.rebase B' l = Except.ok
            ⟨r.date, B', r.target_currency,
              1 / l.exchange_rate * r.exchange_rate⟩ ∧
          (⟨r.date, B', r.target_currency,
              1 / l.exchange_rate * r.exchange_rate⟩ : ExchangeRate) ∈
            calculate_rebased_rates W pivot currencies) := by
  constructor
  · rintro x hx ⟨hxd, hxb⟩
    obtain ⟨d', hd', hcd⟩ := mem_derivations.mp hx
    obtain ⟨B', _, hB'p, hdf⟩ := mem_calcAtDate.mp hcd
    obtain ⟨r, hrmem, _, _, l, hl, rfl⟩ := (mem_derivedFor hB'p).mp hdf
    have hrd : r.date = d' := (mem_ratesOn.mp hrmem).2
    have hd_eq : d' = d := by
      simpa [hrd] using hxd
    have hb_eq : B' = B := hxb
    rw [hd_eq, hb_eq] at hl
    exact Option.noConfusion (hl.symm.trans hnone)
  · intro d' hd' B' hB' hB'p r hrmem hrb hrt l hl
    obtain ⟨hlmem, hlb, hlt⟩ := lookupBase_some hl
    refine ⟨rebase_ok_of_guards hrb hB'p hlb hlt, ?_⟩
    have hrd : r.date = d' := (mem_ratesOn.mp hrmem).2
    have hx : (⟨r.date, B', r.target_currency,
        1 / l.exchange_rate * r.exchange_rate⟩ : ExchangeRate) ∈
        derivedFor pivot (ratesOn W d') B' :=
      (mem_derivedFor hB'p).mpr ⟨r, hrmem, hrb, hrt, l, hl, rfl⟩
    rw [calculate_rebased_rates, List.mem_append]
    exact Or.inr (mem_derivations.mpr
      ⟨d', hd', mem_calcAtDate.mpr ⟨B', hB', hB'p, hx⟩⟩)

theorem missing_lookup_skips_witness :
    lookupBase "EUR" (ratesOn [sampleEURUSD, sampleEURGBP] 0) "CHF" = none ∧
    ((∀ x ∈ derivations [sampleEURUSD, sampleEURGBP] "EUR" ["USD", "CHF"],
      ¬(x.date = 0 ∧ x.base_currency = "CHF")) ∧
    (∀ d' ∈ byDateKeys [sampleEURUSD, sampleEURGBP], ∀ B' ∈ ["USD", "CHF"],
      B' ≠ "EUR" →
      ∀ r ∈ ratesOn [sampleEURUSD, sampleEURGBP] d',
        r.base_currency = "EUR" → r.target_currency ≠ B' →
        ∀ l, lookupBase "EUR" (ratesOn [sampleEURUSD, sampleEURGBP] d') B' =
            some l →
          r.rebase B' l = Except.ok
            ⟨r.date, B', r.target_currency,
              1 / l.exchange_rate * r.exchange_rate⟩ ∧
          (⟨r.date, B', r.target_currency,
              1 / l.exchange_rate * r.exchange_rate⟩ : ExchangeRate) ∈
            calculate_rebased_rates [sampleEURUSD, sampleEURGBP] "EUR"
              ["USD", "CHF"])) :=
  ⟨by decide, missing_lookup_skips [sampleEURUSD, sampleEURGBP] "EUR"
    ["USD", "CHF"] 0 "CHF" (by decide)⟩

/-- C3 counterexample: a pool with pairwise-distinct triples that already
contains a pre-existing inverse observation (USD→EUR next to EUR→USD).
Construction materializes the inverse of EUR→USD, so the working set — and
hence the calculator output, even with an empty request list — holds two
observations with the triple (0, USD, EUR). -/
theorem calc_duplicate_triples_counterexample :
    ([sampleEURUSD, sampleUSDEUR].map ExchangeRate.triple).Nodup ∧
    ¬ ((calculate_rebased_rates (initRates "EUR" [sampleEURUSD, sampleUSDEUR])
        "EUR" []).map ExchangeRate.triple).Nodup := by
  constructor
  · decide
  · decide

/-- On a purely pivot-based pool, the constructor's working set is the pool
followed by all its inverses. -/
theorem initRates_all_pivot (pivot : String) (P : List ExchangeRate)
    (hP : ∀ r ∈ P, r.base_currency = pivot)
    (ht : ∀ r ∈ P, r.target_currency ≠ pivot) :
    initRates pivot P = P ++ P.map ExchangeRate.invert := by
  rw [init_rates_eq pivot P (fun r hr _ => ht r hr),
    List.filter_eq_self.mpr (fun r hr => by simp [hP r hr])]

/-- In the working set of a purely pivot-based pool, observations with the
pivot as base never target the pivot. -/
theorem workingSet_no_pivot_target (pivot : String) (P : List ExchangeRate)
    (hP : ∀ r ∈ P, r.base_currency = pivot)
    (ht : ∀ r ∈ P, r.target_currency ≠ pivot) :
    ∀ r ∈ initRates pivot P,
      r.base_currency = pivot → r.target_currency ≠ pivot := by
  rw [initRates_all_pivot pivot P hP ht]
  intro r hr hb
  rcases List.mem_append.mp hr with hr | hr
  · exact ht r hr
  · obtain ⟨s, hs, rfl⟩ := List.mem_map.mp hr
    exact absurd hb (by simpa [ExchangeRate.invert] using ht s hs)

theorem swap23_injective :
    Function.Injective
      (fun p : Int × String × String => (p.1, p.2.2, p.2.1)) := by
  rintro ⟨a, b, c⟩ ⟨a', b', c'⟩ h
  simp only [Prod.mk.injEq] at h ⊢
  exact ⟨h.1, h.2.2, h.2.1⟩

/-- The triples of the working set of a purely pivot-based pool with
pairwise-distinct triples are pairwise distinct. -/
theorem workingSet_triples_nodup (pivot : String) (P : List ExchangeRate)
    (hP : ∀ r ∈ P, r.base_currency = pivot)
    (ht : ∀ r ∈ P, r.target_currency ≠ pivot)
    (hnd : (P.map ExchangeRate.triple).Nodup) :
    ((initRates pivot P).map ExchangeRate.triple).Nodup := by
  rw [initRates_all_pivot pivot P hP ht, List.map_append]
  have hmap : (P.map ExchangeRate.invert).map ExchangeRate.triple =
      (P.map ExchangeRate.triple).map
        (fun p : Int × String × String => (p.1, p.2.2, p.2.1)) := by
    rw [List.map_map, List.map_map]
    exact List.map_congr_left fun r _ => rfl
  refine List.Nodup.append hnd ?_ ?_
  · rw [hmap]
    exact hnd.map swap23_injective
  · intro x hx1 hx2
    obtain ⟨r, hr, hrx⟩ := List.mem_map.mp hx1
    obtain ⟨q, hq, hqx⟩ := List.mem_map.mp hx2
    obtain ⟨s, hs, rfl⟩ := List.mem_map.mp hq
    have h1 : x.2.1 = pivot := by
      rw [← hrx]
      exact hP r hr
    have h2 : x.2.1 ≠ pivot := by
      rw [← hqx]
      exact ht s hs
    exact h2 h1

theorem derivedFor_eq_nil {pivot B : String} {rsD : List ExchangeRate}
    (hl : lookupBase pivot rsD B = none) : derivedFor pivot rsD B = [] := by
  rw [derivedFor, List.flatMap_eq_nil_iff]
  intro r _
  by_cases h1 : r.base_currency = pivot
  · rw [if_neg (not_not_intro h1)]
    by_cases h2 : r.target_currency = B
    · rw [if_pos h2]
    · rw [if_neg h2, hl]
  · rw [if_pos h1]

theorem derivedFor_eq_some {pivot B : String} {rsD : List ExchangeRate}
    {l : ExchangeRate} (hB : B ≠ pivot)
    (hl : lookupBase pivot rsD B = some l) :
    derivedFor pivot rsD B =
      (rsD.filter
        (fun r => r.base_currency = pivot ∧ r.target_currency ≠ B)).map
        (fun r => ⟨r.date, B, r.target_currency,
          1 / l.exchange_rate * r.exchange_rate⟩) := by
  obtain ⟨_, hlb, hlt⟩ := lookupBase_some hl
  rw [derivedFor]
  have hgen : ∀ (L : List ExchangeRate),
      (L.flatMap fun r =>
        if r.base_currency ≠ pivot then []
        else if r.target_currency = B then []
        else
          match lookupBase pivot rsD B with
          | none => []
          | some l' =>
            match r.rebase B l' with
            | Except.ok x => [x]
            | Except.error _ => []) =
      (L.filter
        (fun r => r.base_currency = pivot ∧ r.target_currency ≠ B)).map
        (fun r => ⟨r.date, B, r.target_currency,
          1 / l.exchange_rate * r.exchange_rate⟩) := by
    intro L
    induction L with
    | nil => simp
    | cons r L ihL =>
      rw [List.flatMap_cons, ihL, List.filter_cons]
      by_cases h1 : r.base_currency = pivot
      · by_cases h2 : r.target_currency = B
        · rw [if_neg (not_not_intro h1), if_pos h2]
          simp [h1, h2]
        · rw [if_neg (not_not_intro h1), if_neg h2]
          simp only [hl, rebase_ok_of_guards h1 hB hlb hlt]
          simp [h1, h2]
      · rw [if_pos h1]
        simp [h1]
  exact hgen rsD

theorem derivedFor_triples_nodup {pivot B : String} {rsD : List ExchangeRate}
    (hB : B ≠ pivot) (hnd : (rsD.map ExchangeRate.triple).Nodup) :
    ((derivedFor pivot rsD B).map ExchangeRate.triple).Nodup := by
  cases hl : lookupBase pivot rsD B with
  | none => rw [derivedFor_eq_nil hl]; simp
  | some l =>
    rw [derivedFor_eq_some hB hl, List.map_map]
    have hfilsub :
        ((rsD.filter
          (fun r => r.base_currency = pivot ∧ r.target_currency ≠ B)).map
            ExchangeRate.triple).Sublist (rsD.map ExchangeRate.triple) :=
      List.Sublist.map ExchangeRate.triple (List.filter_sublist rsD)
    have hfilnd := List.Nodup.sublist hfilsub hnd
    refine List.Nodup.map_on ?_ (List.Nodup.of_map ExchangeRate.triple hfilnd)
    intro x hx y hy hxy
    have hxb : x.base_currency = pivot := by
      have := (List.mem_filter.mp hx).2
      simp at this
      exact this.1
    have hyb : y.base_currency = pivot := by
      have := (List.mem_filter.mp hy).2
      simp at this
      exact this.1
    simp only [Function.comp, ExchangeRate.triple, Prod.mk.injEq,
      ExchangeRate.mk.injEq] at hxy
    have htr : x.triple = y.triple := by
      simp [ExchangeRate.triple, hxb, hyb, hxy.1, hxy.2]
    exact List.inj_on_of_nodup_map hfilnd hx hy htr

theorem derivedFor_base {pivot B : String} {rsD : List ExchangeRate}
    {x : ExchangeRate} (hB : B ≠ pivot) (hx : x ∈ derivedFor pivot rsD B) :
    x.base_currency = B := by
  obtain ⟨r, _, _, _, l, _, rfl⟩ := (mem_derivedFor hB).mp hx
  rfl

theorem calcAtDate_date {W : List ExchangeRate} {pivot : String}
    {currencies : List String} {d : Int} {x : ExchangeRate}
    (hx : x ∈ calcAtDate pivot (ratesOn W d) currencies) : x.date = d := by
  obtain ⟨B, _, hBp, hdf⟩ := mem_calcAtDate.mp hx
  obtain ⟨r, hrm, _, _, l, _, rfl⟩ := (mem_derivedFor hBp).mp hdf
  exact (mem_ratesOn.mp hrm).2

theorem calcAtDate_triples_nodup {pivot : String} {rsD : List ExchangeRate}
    {currencies : List String}
    (hnd : (rsD.map ExchangeRate.triple).Nodup) (hcur : currencies.Nodup) :
    ((calcAtDate pivot rsD currencies).map ExchangeRate.triple).Nodup := by
  rw [calcAtDate, List.map_flatMap, List.nodup_flatMap]
  constructor
  · intro B _
    by_cases h : B = pivot
    · simp [h]
    · rw [if_neg h]
      exact derivedFor_triples_nodup h hnd
  · refine hcur.imp ?_
    intro B B' hne t ht1 ht2
    by_cases h : B = pivot
    · simp [if_pos h] at ht1
    · by_cases h' : B' = pivot
      · simp [if_pos h'] at ht2
      · simp only [if_neg h] at ht1
        simp only [if_neg h'] at ht2
        obtain ⟨x, hx, rfl⟩ := List.mem_map.mp ht1
        obtain ⟨y, hy, hyt⟩ := List.mem_map.mp ht2
        have hxb := derivedFor_base h hx
        have hyb := derivedFor_base h' hy
        have hbb : y.base_currency = x.base_currency :=
          congrArg (fun p : Int × String × String => p.2.1) hyt
        exact hne (hxb ▸ hyb ▸ hbb.symm)

theorem derivations_triples_nodup (W : List ExchangeRate) (pivot : String)
    (currencies : List String)
    (hWnd : (W.map ExchangeRate.triple).Nodup) (hcur : currencies.Nodup) :
    ((derivations W pivot currencies).map ExchangeRate.triple).Nodup := by
  rw [derivations, List.map_flatMap, List.nodup_flatMap]
  constructor
  · intro d _
    refine calcAtDate_triples_nodup ?_ hcur
    exact List.Nodup.sublist
      (List.Sublist.map ExchangeRate.triple (List.filter_sublist W)) hWnd
  · refine (byDateKeys_nodup W).imp ?_
    intro d d' hne t ht1 ht2
    obtain ⟨x, hx, rfl⟩ := List.mem_map.mp ht1
    obtain ⟨y, hy, hyt⟩ := List.mem_map.mp ht2
    have hxd : x.date = d := calcAtDate_date hx
    have hyd : y.date = d' := calcAtDate_date hy
    have hdd : y.date = x.date :=
      congrArg (fun p : Int × String × String => p.1) hyt
    exact hne (hxd ▸ hyd ▸ hdd.symm)

/-- C3 (amended): for a purely pivot-based pool (every observation has the
pivot as base and a non-pivot target) with pairwise-distinct
(date, base, target) triples and a duplicate-free requested currency list,
the output of `calculate_rebased_rates` on the constructed working set has
pairwise-distinct (date, base, target) triples. -/
theorem calc_triples_nodup (P : List ExchangeRate) (pivot : String)
    (currencies : List String)
    (hP : ∀ r ∈ P, r.base_currency = pivot)
    (ht : ∀ r ∈ P, r.target_currency ≠ pivot)
    (hnd : (P.map ExchangeRate.triple).Nodup)
    (hcur : currencies.Nodup) :
    ((calculate_rebased_rates (initRates pivot P) pivot currencies).map
      ExchangeRate.triple).Nodup := by
  have hWnd := workingSet_triples_nodup pivot P hP ht hnd
  rw [calculate_rebased_rates, List.map_append]
  refine List.Nodup.append hWnd
    (derivations_triples_nodup _ pivot currencies hWnd hcur) ?_
  intro t htW htD
  obtain ⟨x, hxW, rfl⟩ := List.mem_map.mp htW
  obtain ⟨y, hyD, hyt⟩ := List.mem_map.mp htD
  obtain ⟨d, hd, hyc⟩ := mem_derivations.mp hyD
  obtain ⟨B, hB, hBp, hdf⟩ := mem_calcAtDate.mp hyc
  obtain ⟨r, hrm, hrb, hrt, l, hl, rfl⟩ := (mem_derivedFor hBp).mp hdf
  have hrW : r ∈ initRates pivot P := (mem_ratesOn.mp hrm).1
  have hrtp : r.target_currency ≠ pivot :=
    workingSet_no_pivot_target pivot P hP ht r hrW hrb
  have hx_cases : x.base_currency = pivot ∨ x.target_currency = pivot := by
    rw [initRates_all_pivot pivot P hP ht] at hxW
    rcases List.mem_append.mp hxW with h | h
    · exact Or.inl (hP x h)
    · obtain ⟨s, hs, rfl⟩ := List.mem_map.mp h
      exact Or.inr (hP s hs)
  have hbx : B = x.base_currency :=
    congrArg (fun p : Int × String × String => p.2.1) hyt
  have htx : r.target_currency = x.target_currency :=
    congrArg (fun p : Int × String × String => p.2.2) hyt
  rcases hx_cases with h | h
  · exact hBp (hbx.trans h)
  · exact hrtp (htx.trans h)

theorem calc_triples_nodup_witness :
    ((∀ r ∈ [sampleEURUSD, sampleEURGBP], r.base_currency = "EUR") ∧
      (∀ r ∈ [sampleEURUSD, sampleEURGBP], r.target_currency ≠ "EUR") ∧
      ([sampleEURUSD, sampleEURGBP].map ExchangeRate.triple).Nodup ∧
      (["USD", "GBP"] : List String).Nodup) ∧
    ((calculate_rebased_rates (initRates "EUR" [sampleEURUSD, sampleEURGBP])
        "EUR" ["USD", "GBP"]).map ExchangeRate.triple).Nodup :=
  ⟨⟨by decide, by decide, by decide, by decide⟩,
    calc_triples_nodup [sampleEURUSD, sampleEURGBP] "EUR" ["USD", "GBP"]
      (by decide) (by decide) (by decide) (by decide)⟩
